import Mathlib

/-!
Shallow embedding of the SenseEdge-kit quick-start demo (src/demo.py).

Conventions used throughout:
* Python floats are modelled by exact rationals (ℚ); Python ints by ℤ/ℕ.
* Square roots (numpy.linalg.norm, `** 0.5`) are not representable in ℚ, so every
  distance is carried as its square and every source comparison
  of the form `sqrt s < c` (with `0 ≤ s`, `0 < c`) is embedded as the
  equivalent `s < c^2`; alert tuples carry the squared distance.
* Index-based `for`/`while` loops are embedded as fuel-indexed structural
  recursions; each wrapper supplies fuel equal to the list length, which the
  adequacy lemmas below show is enough for the loop to run to completion.
* External collaborators (depth lookup, RealSense deprojection) are taken as
  explicit function parameters; the pipeline's own arithmetic is translated
  from the source.
-/

/-! ### Constants (demo.py lines 17-23) -/

def INPUT_W : ℚ := 640

def INPUT_H : ℚ := 640

def CONF_THRESH : ℚ := 35/100

def IOU_THRESH : ℚ := 45/100

def PERSON_CLASS_ID : ℕ := 0

/-! ### Boxes and IoU (demo.py lines 28-39) -/

/-- A 2D box `(left, top, right, bottom)` in pixel coordinates. -/
structure Box where
  left : ℚ
  top : ℚ
  right : ℚ
  bottom : ℚ
deriving DecidableEq

/-- Area of a box, `(right - left) * (bottom - top)`; used to state properties
of `compute_iou`. -/
def boxArea (b : Box) : ℚ := (b.right - b.left) * (b.bottom - b.top)

/-- IoU of two boxes, demo.py lines 28-39: intersection over union with a
`1e-6` summand in the denominator. -/
def compute_iou (boxA boxB : Box) : ℚ :=
  let xA := max boxA.left boxB.left
  let yA := max boxA.top boxB.top
  let xB := min boxA.right boxB.right
  let yB := min boxA.bottom boxB.bottom
  let interArea := max 0 (xB - xA) * max 0 (yB - yA)
  let areaA := (boxA.right - boxA.left) * (boxA.bottom - boxA.top)
  let areaB := (boxB.right - boxB.left) * (boxB.bottom - boxB.top)
  interArea / (areaA + areaB - interArea + 1/1000000)

/-! ### Scored detections and greedy NMS (demo.py lines 41-60) -/

/-- A scored detection `[x1, y1, x2, y2, score]`. -/
structure Det where
  x1 : ℚ
  y1 : ℚ
  x2 : ℚ
  y2 : ℚ
  score : ℚ
deriving DecidableEq

def Det.toBox (d : Det) : Box := ⟨d.x1, d.y1, d.x2, d.y2⟩

/-- Descending-score order used by `sorted(dets, key=lambda x: x[4], reverse=True)`. -/
def scoreGe (a b : Det) : Prop := b.score ≤ a.score

instance : DecidableRel scoreGe := fun a b => inferInstanceAs (Decidable (b.score ≤ a.score))

instance : IsTotal Det scoreGe := ⟨fun a b => le_total b.score a.score⟩

instance : IsTrans Det scoreGe := ⟨fun _ _ _ hab hbc => le_trans hbc hab⟩

/-- Stable descending sort by score (demo.py line 48). Python's `sorted` is a
stable sort; insertion sort is stable, hence extensionally the same. -/
def sortDesc (dets : List Det) : List Det := List.insertionSort scoreGe dets

/-- One round of the `while dets:` loop keeps exactly the remaining boxes whose
IoU with the selected box is `< iou_thresh` (demo.py line 56). -/
def nmsKeepB (best d : Det) (iou_thresh : ℚ) : Bool :=
  decide (compute_iou (best.toBox) (d.toBox) < iou_thresh)

/-- The `while dets:` loop of demo.py lines 51-58, fuel-indexed (the wrapper
passes fuel = length of the list, which suffices since each round consumes at
least one element). -/
def nmsLoopF : ℕ → List Det → ℚ → List Det
  | 0, _, _ => []
  | _ + 1, [], _ => []
  | fuel + 1, best :: rest, iou_thresh =>
      best :: nmsLoopF fuel (rest.filter (fun d => nmsKeepB best d iou_thresh)) iou_thresh

/-- Greedy NMS, demo.py lines 41-60. -/
def nms (dets : List Det) (iou_thresh : ℚ) : List Det :=
  if dets.length = 0 then []
  else nmsLoopF dets.length (sortDesc dets) iou_thresh

/-- Spec-side description of one selection round: the first remaining box whose
score is maximal among the remaining boxes ("highest-remaining-score box",
first-seen tie-break). -/
def firstMax (l : List Det) : Option Det :=
  l.find? (fun b => l.all (fun d => decide (d.score ≤ b.score)))

/-- Spec-side greedy suppression: repeatedly select the highest-remaining-score
box, then drop from the remainder every box the `keep` predicate rejects.
Instantiated below with the two candidate removal rules (strictly-greater vs
greater-or-equal IoU). -/
def nmsSpecAuxF (keep : Det → Det → Bool) : ℕ → List Det → List Det
  | 0, _ => []
  | fuel + 1, l =>
      match firstMax l with
      | none => []
      | some b => b :: nmsSpecAuxF keep fuel ((l.erase b).filter (keep b))

/-- The suppressor exactly as claim C2 words it: a remaining box is removed
when its IoU with the selected box strictly exceeds `t` (kept at equality). -/
def nmsSpecStrict (dets : List Det) (t : ℚ) : List Det :=
  nmsSpecAuxF (fun b d => decide (compute_iou (b.toBox) (d.toBox) ≤ t)) dets.length dets

/-- The amended suppressor: a remaining box is removed when its IoU with the
selected box is greater than or equal to `t` (removed at equality). -/
def nmsSpecGe (dets : List Det) (t : ℚ) : List Det :=
  nmsSpecAuxF (fun b d => decide (compute_iou (b.toBox) (d.toBox) < t)) dets.length dets

/-! ### YOLOv11 output decode (demo.py lines 132-192) -/

/-- Maximum of a list of rationals, 0 for the empty list (`np.max` over an
anchor's 80 class scores; the list is never empty in the pipeline). -/
def listMax : List ℚ → ℚ
  | [] => 0
  | x :: xs => max x (listMax xs)

/-- Index of the first occurrence of the maximum, 0 for the empty list.
This is `np.argmax` (demo.py line 151): ties resolve to the lowest index. -/
def argmaxIdx : List ℚ → ℕ
  | [] => 0
  | x :: xs => if listMax xs ≤ x then 0 else argmaxIdx xs + 1

/-- The per-class scores of one anchor column: attributes 4.. (demo.py line 144). -/
def anchorScores (a : List ℚ) : List ℚ := a.drop 4

/-- The filter mask of demo.py line 155:
`(cls_ids == PERSON_CLASS_ID) & (cls_scores > conf_thres)`. -/
def anchorMask (conf_thres : ℚ) (a : List ℚ) : Bool :=
  decide (argmaxIdx (anchorScores a) = PERSON_CLASS_ID) &&
    decide (conf_thres < listMax (anchorScores a))

/-- Box conversion and rescale for one surviving anchor, demo.py lines 162-188:
xywh to xyxy in model-input space, then per-axis scaling by
`orig_w / INPUT_W` and `orig_h / INPUT_H`. -/
def anchorToDet (orig_w orig_h : ℚ) (a : List ℚ) : Det :=
  let cx := a.getD 0 0
  let cy := a.getD 1 0
  let w := a.getD 2 0
  let h := a.getD 3 0
  let x1 := cx - w / 2
  let y1 := cy - h / 2
  let x2 := cx + w / 2
  let y2 := cy + h / 2
  let scale_x := orig_w / INPUT_W
  let scale_y := orig_h / INPUT_H
  ⟨x1 * scale_x, y1 * scale_y, x2 * scale_x, y2 * scale_y, listMax (anchorScores a)⟩

/-- The detection list built by demo.py lines 150-188, before NMS: the tensor's
anchor columns (`out.transpose`), masked in order, each converted to a `Det`. -/
def preNmsDets (out : List (List ℚ)) (orig_w orig_h conf_thres : ℚ) : List Det :=
  ((out.transpose).filter (anchorMask conf_thres)).map (anchorToDet orig_w orig_h)

/-- The decoder, demo.py lines 132-192. `out` is the `[84, 8400]` matrix
`output[0]`, modelled row-major (one inner list per attribute row). -/
def decode_yolov11_persons (out : List (List ℚ)) (orig_w orig_h conf_thres : ℚ) : List Det :=
  if out.length ≠ 84 then []
  else
    let dets := preNmsDets out orig_w orig_h conf_thres
    if dets.length = 0 then []
    else nms dets IOU_THRESH

/-! ### Per-frame person entities (demo.py lines 262-287) -/

/-- One entry of `person_boxes` (id, clamped int box, depth in meters) joined
with its `person_positions` entry (the deprojected 3D point). -/
structure Person where
  pid : ℕ
  left : ℤ
  top : ℤ
  right : ℤ
  bottom : ℤ
  depth : ℚ
  pos : ℚ × ℚ × ℚ
deriving DecidableEq

def dfltPerson : Person := ⟨0, 0, 0, 0, 0, 0, (0, 0, 0)⟩

/-- Python `int()` on a rational: truncation toward zero. -/
def pyInt (q : ℚ) : ℤ := if 0 ≤ q then ⌊q⌋ else ⌈q⌉

/-- `int(max(0, min(hi, x)))` (demo.py lines 269-272). -/
def clampQ (hi : ℤ) (x : ℚ) : ℤ := pyInt (max 0 (min (hi : ℚ) x))

/-- Squared Euclidean distance of two 3D points
(`np.linalg.norm(a - b)` squared; comparisons against a positive threshold c
are embedded as squared-distance `< c^2`). -/
def dist3dSq (u v : ℚ × ℚ × ℚ) : ℚ :=
  (u.1 - v.1)^2 + (u.2.1 - v.2.1)^2 + (u.2.2 - v.2.2)^2

/-- The float box-center of a person's box, demo.py lines 314-317
(`(l + r) * 0.5`, `(t + b) * 0.5`). -/
def centerQ (p : Person) : ℚ × ℚ :=
  (((p.left + p.right : ℤ) : ℚ) * (1/2), ((p.top + p.bottom : ℤ) : ℚ) * (1/2))

/-- Squared pixel distance between two persons' float box centers
(demo.py line 318 squared). -/
def pixelCenterDistSq (p q : Person) : ℚ :=
  ((centerQ p).1 - (centerQ q).1)^2 + ((centerQ p).2 - (centerQ q).2)^2

def personBox (p : Person) : Box :=
  ⟨(p.left : ℚ), (p.top : ℚ), (p.right : ℚ), (p.bottom : ℚ)⟩

/-- The merge test of demo.py line 321:
`(iou > 0.25 and dist3d < 0.35) or pixel_dist < 140`, with both real-valued
distance comparisons carried on squares (`dist3d < 0.35` iff
`dist3dSq < (7/20)^2`; `pixel_dist < 140` iff `pixelCenterDistSq < 140^2`). -/
def mergeCondB (p q : Person) : Bool :=
  (decide ((1/4 : ℚ) < compute_iou (personBox p) (personBox q)) &&
      decide (dist3dSq p.pos q.pos < (7/20)^2)) ||
    decide (pixelCenterDistSq p q < (140:ℚ)^2)

/-- The inner `for j in range(i+1, ...)` loop of demo.py lines 301-322: starting
from index `j`, add to `skip` every not-yet-skipped later index whose candidate
merges with the anchor `c`. Fuel-indexed; wrappers pass fuel = list length. -/
def innerSkipF (c : Person) (cands : List Person) : ℕ → ℕ → Finset ℕ → Finset ℕ
  | 0, _, skip => skip
  | fuel + 1, j, skip =>
      if j < cands.length then
        innerSkipF c cands fuel (j + 1)
          (if j ∈ skip then skip
           else if mergeCondB c (cands.getD j dfltPerson) then insert j skip else skip)
      else skip

/-- The outer `for i in range(len(person_boxes))` loop of demo.py lines
293-324: emit every unskipped candidate in order, after letting it absorb all
later matching candidates into `skip`. -/
def mergeLoopF (cands : List Person) : ℕ → ℕ → Finset ℕ → List Person
  | 0, _, _ => []
  | fuel + 1, i, skip =>
      if i < cands.length then
        if i ∈ skip then mergeLoopF cands fuel (i + 1) skip
        else
          cands.getD i dfltPerson ::
            mergeLoopF cands fuel (i + 1)
              (innerSkipF (cands.getD i dfltPerson) cands cands.length (i + 1) skip)
      else []

/-- The IoU + 3D merge stage (SpatialDeduplicator), demo.py lines 289-326. -/
def spatialDedup (cands : List Person) : List Person :=
  mergeLoopF cands cands.length 0 ∅

/-- Spec-side deduplication, fuel-indexed: keep the head, drop every later
candidate it merges with, recurse on the survivors. -/
def dedupSpecF : ℕ → List Person → List Person
  | 0, _ => []
  | _ + 1, [] => []
  | fuel + 1, c :: rest =>
      c :: dedupSpecF fuel (rest.filter (fun d => ! mergeCondB c d))

/-- Spec-side deduplication as worded in the spec: process candidates in
original order; a later candidate is absorbed by the earliest surviving
candidate it merges with; survivors keep their relative order. -/
def dedupSpec (cands : List Person) : List Person := dedupSpecF cands.length cands

/-- The sublist of candidates at indices `≥ i` that are not in `skip` (the
candidates the merge loop has yet to examine); proof-side construct relating
the index/skip-set loop to the structural recursion. -/
def pendF (cands : List Person) (skip : Finset ℕ) : ℕ → ℕ → List Person
  | 0, _ => []
  | fuel + 1, i =>
      if i < cands.length then
        if i ∈ skip then pendF cands skip fuel (i + 1)
        else cands.getD i dfltPerson :: pendF cands skip fuel (i + 1)
      else []

/-! ### Inter-person distance (ProximityEvaluator), demo.py lines 328-349 -/

/-- The integer box-center pixel used by the proximity loop, demo.py lines
337/340: `((l + r) // 2, (t + b) // 2)` with Python floor division. -/
def pxCenter (p : Person) : ℤ × ℤ :=
  ((p.left + p.right).fdiv 2, (p.top + p.bottom).fdiv 2)

/-- The alert the proximity loop emits for an ordered pair, if any: the pair's
squared 3D distance (between the re-deprojected box centers) must be below
`0.8^2` (demo.py lines 335-349; squared-distance embedding of `dist3 < 0.8`). -/
def alertOpt (deproj : ℤ × ℤ → ℚ → ℚ × ℚ × ℚ) (p q : Person) : Option (ℕ × ℕ × ℚ) :=
  let s := dist3dSq (deproj (pxCenter p) p.depth) (deproj (pxCenter q) q.depth)
  if s < (4/5)^2 then some (p.pid, q.pid, s) else none

/-- The inner `for j in range(i+1, ...)` loop of demo.py lines 331-349. -/
def innerAlertsF (deproj : ℤ × ℤ → ℚ → ℚ × ℚ × ℚ) (ps : List Person) (p : Person) :
    ℕ → ℕ → List (ℕ × ℕ × ℚ)
  | 0, _ => []
  | fuel + 1, j =>
      if j < ps.length then
        (let q := ps.getD j dfltPerson
         let s := dist3dSq (deproj (pxCenter p) p.depth) (deproj (pxCenter q) q.depth)
         if s < (4/5)^2 then [(p.pid, q.pid, s)] else []) ++
          innerAlertsF deproj ps p fuel (j + 1)
      else []

/-- The outer loop of demo.py lines 330-349 building `close_pairs`. -/
def closePairsLoopF (deproj : ℤ × ℤ → ℚ → ℚ × ℚ × ℚ) (ps : List Person) :
    ℕ → ℕ → List (ℕ × ℕ × ℚ)
  | 0, _ => []
  | fuel + 1, i =>
      if i < ps.length then
        innerAlertsF deproj ps (ps.getD i dfltPerson) ps.length (i + 1) ++
          closePairsLoopF deproj ps fuel (i + 1)
      else []

/-- The ProximityEvaluator, demo.py lines 328-349. -/
def closePairs (deproj : ℤ × ℤ → ℚ → ℚ × ℚ × ℚ) (ps : List Person) : List (ℕ × ℕ × ℚ) :=
  closePairsLoopF deproj ps ps.length 0

/-- All ordered pairs `(i, j)` with `i < j`, in ascending lexicographic
iteration order; used to state the ProximityEvaluator characterization. -/
def allPairs {α : Type} : List α → List (α × α)
  | [] => []
  | x :: xs => xs.map (fun y => (x, y)) ++ allPairs xs

/-- Structural form of the proximity scan used as a stepping stone between the
index loop and the `allPairs` comprehension. -/
def specAlerts (deproj : ℤ × ℤ → ℚ → ℚ × ℚ × ℚ) : List Person → List (ℕ × ℕ × ℚ)
  | [] => []
  | p :: rest => rest.filterMap (alertOpt deproj p) ++ specAlerts deproj rest

/-! ### ID assignment (demo.py lines 262-287) -/

/-- Build one person from one detection, demo.py lines 266-286: clamp the float
box to integer image bounds, take the integer box center, clamp it to the depth
image bounds, look up scaled depth there, and deproject. `depthAt row col`
models `depth_image[cy, cx]` (already a plain number; the `depth_scale` factor
multiplies it). -/
def mkPerson (depthAt : ℤ → ℤ → ℚ) (depth_scale : ℚ) (deproj : ℤ × ℤ → ℚ → ℚ × ℚ × ℚ)
    (orig_w orig_h depth_h depth_w : ℤ) (idc : ℕ) (det : Det) : Person :=
  let left_i := clampQ (orig_w - 1) det.x1
  let top_i := clampQ (orig_h - 1) det.y1
  let right_i := clampQ (orig_w - 1) det.x2
  let bottom_i := clampQ (orig_h - 1) det.y2
  let cx0 := pyInt (((left_i + right_i : ℤ) : ℚ) / 2)
  let cy0 := pyInt (((top_i + bottom_i : ℤ) : ℚ) / 2)
  let cy := max 0 (min cy0 (depth_h - 1))
  let cx := max 0 (min cx0 (depth_w - 1))
  let depth_value := depthAt cy cx * depth_scale
  ⟨idc, left_i, top_i, right_i, bottom_i, depth_value, deproj (cx, cy) depth_value⟩

/-- The `for det in dets` loop with its running `id_counter`. -/
def assignFrom (depthAt : ℤ → ℤ → ℚ) (depth_scale : ℚ) (deproj : ℤ × ℤ → ℚ → ℚ × ℚ × ℚ)
    (orig_w orig_h depth_h depth_w : ℤ) : ℕ → List Det → List Person
  | _, [] => []
  | idc, det :: rest =>
      mkPerson depthAt depth_scale deproj orig_w orig_h depth_h depth_w idc det ::
        assignFrom depthAt depth_scale deproj orig_w orig_h depth_h depth_w (idc + 1) rest

/-- ID assignment over a frame's decoded detections, demo.py lines 262-287:
`id_counter` starts at 1. -/
def assignPersons (depthAt : ℤ → ℤ → ℚ) (depth_scale : ℚ) (deproj : ℤ × ℤ → ℚ → ℚ × ℚ × ℚ)
    (orig_w orig_h depth_h depth_w : ℤ) (dets : List Det) : List Person :=
  assignFrom depthAt depth_scale deproj orig_w orig_h depth_h depth_w 1 dets

/-! ## Theorems -/

/-! ### GeometryOps: IoU properties -/

lemma compute_iou_self_eq (a : Box) (hw : a.left < a.right) (hh : a.top < a.bottom) :
    compute_iou a a = boxArea a / (boxArea a + 1/1000000) := by
  have hw' : (0:ℚ) ≤ a.right - a.left := by linarith
  have hh' : (0:ℚ) ≤ a.bottom - a.top := by linarith
  simp only [compute_iou, boxArea, max_self, min_self]
  rw [max_eq_right hw', max_eq_right hh']
  ring_nf

lemma boxArea_pos (a : Box) (hw : a.left < a.right) (hh : a.top < a.bottom) :
    0 < boxArea a := mul_pos (by linarith) (by linarith)

/-- C9: IoU symmetry: for all boxes a and b, iou(a, b) = iou(b, a). -/
theorem c9_iou_symm (a b : Box) : compute_iou a b = compute_iou b a := by
  simp only [compute_iou]
  rw [max_comm a.left b.left, max_comm a.top b.top,
    min_comm a.right b.right, min_comm a.bottom b.bottom]
  ring_nf

/-- C6 counterexample: at the concrete non-degenerate unit box, the code's
`compute_iou a a` is not exactly 1, because of the `1e-6` summand in the
denominator. -/
theorem c6_cex_iou_self_ne_one :
    compute_iou ⟨0, 0, 1, 1⟩ ⟨0, 0, 1, 1⟩ ≠ 1 := by
  norm_num [compute_iou]

/-- C6 (amended): for every non-degenerate box `a` (strictly positive width and
height), `iou(a, a)` equals `area / (area + 1e-6)`, which is strictly less
than 1 (within `1e-6 / area` of 1, but never exactly 1). -/
theorem c6_iou_self (a : Box) (hw : a.left < a.right) (hh : a.top < a.bottom) :
    compute_iou a a = boxArea a / (boxArea a + 1/1000000) ∧ compute_iou a a < 1 := by
  have harea := boxArea_pos a hw hh
  have heq := compute_iou_self_eq a hw hh
  refine ⟨heq, ?_⟩
  rw [heq]
  rw [div_lt_one (by linarith)]
  linarith

/-- Witness for C6 at the box (0,0,2,3). -/
theorem c6_iou_self_witness :
    ((Box.mk 0 0 2 3).left < (Box.mk 0 0 2 3).right ∧
      (Box.mk 0 0 2 3).top < (Box.mk 0 0 2 3).bottom) ∧
    (compute_iou ⟨0, 0, 2, 3⟩ ⟨0, 0, 2, 3⟩ =
        boxArea ⟨0, 0, 2, 3⟩ / (boxArea ⟨0, 0, 2, 3⟩ + 1/1000000) ∧
      compute_iou ⟨0, 0, 2, 3⟩ ⟨0, 0, 2, 3⟩ < 1) :=
  ⟨⟨by norm_num, by norm_num⟩, c6_iou_self ⟨0, 0, 2, 3⟩ (by norm_num) (by norm_num)⟩

/-! ### Decoder: malformed output and box transform -/

/-- C4: for every input tensor whose attribute count differs from 84, the
decoder returns the empty detection list (total function; no exception). -/
theorem c4_malformed_returns_empty (out : List (List ℚ)) (orig_w orig_h conf : ℚ)
    (hlen : out.length ≠ 84) : decode_yolov11_persons out orig_w orig_h conf = [] := by
  simp only [decode_yolov11_persons, if_pos hlen]

/-- Witness for C4 at a concrete 10-attribute tensor. -/
theorem c4_malformed_returns_empty_witness :
    (List.replicate 10 [(0:ℚ)]).length ≠ 84 ∧
      decode_yolov11_persons (List.replicate 10 [(0:ℚ)]) 1280 720 CONF_THRESH = [] :=
  ⟨by norm_num, c4_malformed_returns_empty _ 1280 720 CONF_THRESH (by norm_num)⟩

lemma nmsLoopF_mem {d : Det} : ∀ (fuel : ℕ) (l : List Det) (t : ℚ),
    d ∈ nmsLoopF fuel l t → d ∈ l := by
  intro fuel
  induction fuel with
  | zero => intro l t h; simp [nmsLoopF] at h
  | succ n ih =>
    intro l t h
    match l with
    | [] => simp [nmsLoopF] at h
    | best :: rest =>
      simp only [nmsLoopF, List.mem_cons] at h
      rcases h with h | h
      · exact h ▸ List.mem_cons_self best rest
      · exact List.mem_cons_of_mem best (List.mem_of_mem_filter (ih _ _ h))

lemma nms_mem {d : Det} {dets : List Det} {t : ℚ} (h : d ∈ nms dets t) : d ∈ dets := by
  unfold nms at h
  split at h
  · simp at h
  · exact ((List.perm_insertionSort scoreGe dets).mem_iff).mp (nmsLoopF_mem _ _ _ h)

/-- C5: for every anchor surviving the class/confidence filter, the decoder's
detection is `(cx - w/2, cy - h/2, cx + w/2, cy + h/2)` computed in model-input
space and then rescaled per-axis by `orig_w / 640` and `orig_h / 640` (no
letterbox correction): the pre-suppression detection list is exactly the
masked anchor columns mapped through that closed-form transform. -/
theorem c5_box_transform (out : List (List ℚ)) (orig_w orig_h conf : ℚ) :
    preNmsDets out orig_w orig_h conf =
      ((out.transpose).filter (anchorMask conf)).map (fun a =>
        Det.mk ((a.getD 0 0 - a.getD 2 0 / 2) * (orig_w / 640))
          ((a.getD 1 0 - a.getD 3 0 / 2) * (orig_h / 640))
          ((a.getD 0 0 + a.getD 2 0 / 2) * (orig_w / 640))
          ((a.getD 1 0 + a.getD 3 0 / 2) * (orig_h / 640))
          (listMax (a.drop 4))) := rfl

/-- Every detection the decoder outputs is one of the converted surviving
anchors (the suppressor only selects from its input). -/
lemma decode_mem_preNmsDets (out : List (List ℚ)) (orig_w orig_h conf : ℚ) :
    ∀ d ∈ decode_yolov11_persons out orig_w orig_h conf,
      d ∈ preNmsDets out orig_w orig_h conf := by
  intro d hd
  by_cases hlen : out.length ≠ 84
  · rw [decode_yolov11_persons, if_pos hlen] at hd
    simp at hd
  · have hd' : d ∈ (if (preNmsDets out orig_w orig_h conf).length = 0 then []
        else nms (preNmsDets out orig_w orig_h conf) IOU_THRESH) := by
      rw [decode_yolov11_persons, if_neg hlen] at hd
      exact hd
    split at hd'
    · simp at hd'
    · exact nms_mem hd'

/-! ### Argmax tie-break (np.argmax, demo.py line 151) -/

lemma argmax_getD_eq_listMax : ∀ l : List ℚ, l.getD (argmaxIdx l) 0 = listMax l := by
  intro l
  induction l with
  | nil => simp [argmaxIdx, listMax]
  | cons x xs ih =>
    by_cases hx : listMax xs ≤ x
    · simp [argmaxIdx, hx, listMax, max_eq_left hx]
    · have hx' : x < listMax xs := lt_of_not_le hx
      simp only [argmaxIdx, if_neg hx, listMax, List.getD_cons_succ]
      rw [ih, max_eq_right (le_of_lt hx')]

lemma argmax_earlier_lt : ∀ (l : List ℚ) (j : ℕ), j < argmaxIdx l → l.getD j 0 < listMax l := by
  intro l
  induction l with
  | nil => intro j hj; simp [argmaxIdx] at hj
  | cons x xs ih =>
    intro j hj
    by_cases hx : listMax xs ≤ x
    · simp [argmaxIdx, hx] at hj
    · have hx' : x < listMax xs := lt_of_not_le hx
      simp only [argmaxIdx, if_neg hx] at hj
      match j with
      | 0 =>
        simpa [listMax, max_eq_right (le_of_lt hx')] using hx'
      | j + 1 =>
        have := ih j (by omega)
        simpa [listMax, max_eq_right (le_of_lt hx')] using this

lemma argmax_zero_of_head (l : List ℚ) (h : listMax l ≤ l.getD 0 0) : argmaxIdx l = 0 := by
  match l with
  | [] => rfl
  | x :: xs =>
    have hx : listMax xs ≤ x := by
      have h1 : listMax xs ≤ listMax (x :: xs) := by
        simp [listMax]
      simpa [List.getD] using le_trans h1 h
    simp [argmaxIdx, hx]

/-- C10: the decoder's best-class choice is argmax with ties resolved to the
lowest class index: the chosen index attains the maximum, every earlier index
is strictly below the maximum, an anchor whose person score (class index 0)
equals the maximum is classified as person, and such an anchor passes the
class/confidence mask whenever its score also exceeds the threshold. -/
theorem c10_argmax_tiebreak (l : List ℚ) (conf : ℚ) (a : List ℚ)
    (hhead : listMax (anchorScores a) ≤ (anchorScores a).getD 0 0)
    (hconf : conf < listMax (anchorScores a)) :
    (l.getD (argmaxIdx l) 0 = listMax l ∧ ∀ j, j < argmaxIdx l → l.getD j 0 < listMax l) ∧
      argmaxIdx (anchorScores a) = PERSON_CLASS_ID ∧
      anchorMask conf a = true := by
  refine ⟨⟨argmax_getD_eq_listMax l, argmax_earlier_lt l⟩, ?_, ?_⟩
  · exact argmax_zero_of_head _ hhead
  · simp [anchorMask, argmax_zero_of_head _ hhead, hconf, PERSON_CLASS_ID]

/-- Witness for C10 at a tied anchor: scores [1/2, 1/2] (person score equals
the maximum) with threshold 35/100. -/
theorem c10_argmax_tiebreak_witness :
    (listMax (anchorScores [0, 0, 0, 0, 1/2, 1/2]) ≤
        (anchorScores [0, 0, 0, 0, (1:ℚ)/2, 1/2]).getD 0 0 ∧
      CONF_THRESH < listMax (anchorScores [0, 0, 0, 0, (1:ℚ)/2, 1/2])) ∧
    ((([(3:ℚ), 5, 5]).getD (argmaxIdx [(3:ℚ), 5, 5]) 0 = listMax [(3:ℚ), 5, 5] ∧
        ∀ j, j < argmaxIdx [(3:ℚ), 5, 5] → ([(3:ℚ), 5, 5]).getD j 0 < listMax [(3:ℚ), 5, 5]) ∧
      argmaxIdx (anchorScores [0, 0, 0, 0, (1:ℚ)/2, 1/2]) = PERSON_CLASS_ID ∧
      anchorMask CONF_THRESH [0, 0, 0, 0, (1:ℚ)/2, 1/2] = true) := by
  have h1 : listMax (anchorScores [0, 0, 0, 0, (1:ℚ)/2, 1/2]) ≤
      (anchorScores [0, 0, 0, 0, (1:ℚ)/2, 1/2]).getD 0 0 := by
    norm_num [anchorScores, listMax, max_def]
  have h2 : CONF_THRESH < listMax (anchorScores [0, 0, 0, 0, (1:ℚ)/2, 1/2]) := by
    norm_num [anchorScores, listMax, max_def, CONF_THRESH]
  exact ⟨⟨h1, h2⟩, c10_argmax_tiebreak [(3:ℚ), 5, 5] CONF_THRESH _ h1 h2⟩

/-! ### Empty propagation (C7) -/

/-- C7: empty propagates to empty at every stage: a tensor with no anchor
passing the class/confidence filter decodes to the empty list, NMS on an empty
list is empty, the spatial deduplicator on an empty candidate list is empty,
and the proximity evaluator on an empty person list emits no alerts; all
stages are total functions, so none fails on empty input. -/
theorem c7_empty_propagation (out : List (List ℚ)) (orig_w orig_h conf t : ℚ)
    (deproj : ℤ × ℤ → ℚ → ℚ × ℚ × ℚ)
    (hmask : ∀ a ∈ out.transpose, anchorMask conf a = false) :
    decode_yolov11_persons out orig_w orig_h conf = [] ∧
      nms [] t = [] ∧ spatialDedup [] = [] ∧ closePairs deproj [] = [] := by
  refine ⟨?_, by simp [nms], rfl, rfl⟩
  by_cases hlen : out.length ≠ 84
  · rw [decode_yolov11_persons, if_pos hlen]
  · have hnil : preNmsDets out orig_w orig_h conf = [] := by
      unfold preNmsDets
      rw [List.filter_eq_nil_iff.mpr, List.map_nil]
      intro a ha
      simp [hmask a ha]
    show (if out.length ≠ 84 then []
        else if (preNmsDets out orig_w orig_h conf).length = 0 then []
        else nms (preNmsDets out orig_w orig_h conf) IOU_THRESH) = []
    rw [if_neg hlen, hnil]
    simp

/-- Witness for C7 at a concrete one-column tensor whose only anchor fails the
confidence filter. -/
theorem c7_empty_propagation_witness :
    (∀ a ∈ ([[(0:ℚ)]]).transpose, anchorMask CONF_THRESH a = false) ∧
      (decode_yolov11_persons [[(0:ℚ)]] 1280 720 CONF_THRESH = [] ∧
        nms [] (45/100) = [] ∧ spatialDedup [] = [] ∧
        closePairs (fun _ _ => (0, 0, 0)) [] = []) := by
  have htr : ([[(0:ℚ)]]).transpose = [[(0:ℚ)]] := rfl
  have hmask : ∀ a ∈ ([[(0:ℚ)]]).transpose, anchorMask CONF_THRESH a = false := by
    rw [htr]
    intro a ha
    rcases List.mem_singleton.mp ha with rfl
    norm_num [anchorMask, anchorScores, argmaxIdx, listMax, CONF_THRESH, PERSON_CLASS_ID]
  exact ⟨hmask, c7_empty_propagation [[(0:ℚ)]] 1280 720 CONF_THRESH (45/100) _ hmask⟩

/-! ### ProximityEvaluator: loop-to-comprehension (C3) -/

lemma innerAlertsF_eq (deproj : ℤ × ℤ → ℚ → ℚ × ℚ × ℚ) (ps : List Person) (p : Person) :
    ∀ (fuel j : ℕ), ps.length ≤ j + fuel →
      innerAlertsF deproj ps p fuel j = (ps.drop j).filterMap (alertOpt deproj p) := by
  intro fuel
  induction fuel with
  | zero =>
    intro j hj
    rw [List.drop_eq_nil_of_le (by omega)]
    rfl
  | succ n ih =>
    intro j hj
    by_cases h : j < ps.length
    · rw [List.drop_eq_getElem_cons h, List.filterMap_cons]
      have hq : ps.getD j dfltPerson = ps[j] := List.getD_eq_getElem ps dfltPerson h
      simp only [innerAlertsF, if_pos h, hq]
      rw [ih (j + 1) (by omega)]
      unfold alertOpt
      by_cases hc : dist3dSq (deproj (pxCenter p) p.depth)
          (deproj (pxCenter ps[j]) ps[j].depth) < (4/5)^2
      · simp [hc]
      · simp [hc]
    · rw [List.drop_eq_nil_of_le (by omega)]
      simp only [innerAlertsF, if_neg h]
      rfl

lemma closePairsLoopF_eq (deproj : ℤ × ℤ → ℚ → ℚ × ℚ × ℚ) (ps : List Person) :
    ∀ (fuel i : ℕ), ps.length ≤ i + fuel →
      closePairsLoopF deproj ps fuel i = specAlerts deproj (ps.drop i) := by
  intro fuel
  induction fuel with
  | zero =>
    intro i hi
    rw [List.drop_eq_nil_of_le (by omega)]
    rfl
  | succ n ih =>
    intro i hi
    by_cases h : i < ps.length
    · rw [List.drop_eq_getElem_cons h]
      have hp : ps.getD i dfltPerson = ps[i] := List.getD_eq_getElem ps dfltPerson h
      simp only [closePairsLoopF, if_pos h, hp]
      rw [ih (i + 1) (by omega), innerAlertsF_eq deproj ps ps[i] ps.length (i + 1) (by omega)]
      rfl
    · rw [List.drop_eq_nil_of_le (by omega)]
      simp only [closePairsLoopF, if_neg h]
      rfl

lemma specAlerts_eq_allPairs (deproj : ℤ × ℤ → ℚ → ℚ × ℚ × ℚ) :
    ∀ ps : List Person,
      specAlerts deproj ps = (allPairs ps).filterMap (fun pq => alertOpt deproj pq.1 pq.2) := by
  intro ps
  induction ps with
  | nil => rfl
  | cons p rest ih =>
    simp only [specAlerts, allPairs, List.filterMap_append, ih, List.filterMap_map]
    rfl

/-- C3: the proximity loop emits an alert for the (i, j) pair (ids and squared
distance) exactly when the squared 3D distance between the two persons'
deprojected box-center positions is below `0.8^2`; the alert list is exactly
the ascending-(i, j) pair list filtered by that condition, so a person may
appear in multiple alerts. -/
theorem c3_proximity_alerts (deproj : ℤ × ℤ → ℚ → ℚ × ℚ × ℚ) (ps : List Person) :
    closePairs deproj ps =
      (allPairs ps).filterMap (fun pq =>
        if dist3dSq (deproj (pxCenter pq.1) pq.1.depth) (deproj (pxCenter pq.2) pq.2.depth)
            < (4/5)^2 then
          some (pq.1.pid, pq.2.pid,
            dist3dSq (deproj (pxCenter pq.1) pq.1.depth) (deproj (pxCenter pq.2) pq.2.depth))
        else none) := by
  rw [closePairs, closePairsLoopF_eq deproj ps ps.length 0 (by omega), List.drop_zero,
    specAlerts_eq_allPairs]
  rfl

/-! ### SpatialDeduplicator: loop-to-recursion equivalence (C1, C8) -/

lemma innerSkipF_mem (c : Person) (cands : List Person) :
    ∀ (fuel j : ℕ) (skip : Finset ℕ) (k : ℕ), cands.length ≤ j + fuel →
      (k ∈ innerSkipF c cands fuel j skip ↔
        k ∈ skip ∨
          (j ≤ k ∧ k < cands.length ∧ mergeCondB c (cands.getD k dfltPerson) = true)) := by
  intro fuel
  induction fuel with
  | zero =>
    intro j skip k hf
    simp only [innerSkipF]
    constructor
    · exact Or.inl
    · rintro (h | ⟨h1, h2, _⟩)
      · exact h
      · omega
  | succ n ih =>
    intro j skip k hf
    simp only [innerSkipF]
    by_cases h : j < cands.length
    · rw [if_pos h]
      have hmem : ∀ m : ℕ,
          m ∈ (if j ∈ skip then skip
            else if mergeCondB c (cands.getD j dfltPerson) then insert j skip else skip) ↔
          m ∈ skip ∨ (m = j ∧ mergeCondB c (cands.getD j dfltPerson) = true) := by
        intro m
        by_cases hjs : j ∈ skip
        · rw [if_pos hjs]
          constructor
          · exact Or.inl
          · rintro (hm | ⟨rfl, _⟩)
            · exact hm
            · exact hjs
        · rw [if_neg hjs]
          by_cases hc : mergeCondB c (cands.getD j dfltPerson) = true
          · rw [if_pos hc, Finset.mem_insert]
            constructor
            · rintro (rfl | hm)
              · exact Or.inr ⟨rfl, hc⟩
              · exact Or.inl hm
            · rintro (hm | ⟨rfl, _⟩)
              · exact Or.inr hm
              · exact Or.inl rfl
          · rw [if_neg hc]
            constructor
            · exact Or.inl
            · rintro (hm | ⟨rfl, hcc⟩)
              · exact hm
              · exact absurd hcc hc
      rw [ih (j + 1) _ k (by omega), hmem k]
      constructor
      · rintro ((hs | ⟨rfl, hc⟩) | ⟨h1, h2, h3⟩)
        · exact Or.inl hs
        · exact Or.inr ⟨le_refl _, h, hc⟩
        · exact Or.inr ⟨by omega, h2, h3⟩
      · rintro (hs | ⟨h1, h2, h3⟩)
        · exact Or.inl (Or.inl hs)
        · by_cases hkj : k = j
          · subst hkj
            exact Or.inl (Or.inr ⟨rfl, h3⟩)
          · exact Or.inr ⟨by omega, h2, h3⟩
    · rw [if_neg h]
      constructor
      · exact Or.inl
      · rintro (hs | ⟨h1, h2, _⟩)
        · exact hs
        · omega

lemma pendF_nil (cands : List Person) (skip : Finset ℕ) :
    ∀ (fuel i : ℕ), cands.length ≤ i → pendF cands skip fuel i = [] := by
  intro fuel i hi
  cases fuel with
  | zero => rfl
  | succ n => simp [pendF, not_lt.mpr hi]

lemma pendF_adequate (cands : List Person) (skip : Finset ℕ) :
    ∀ (fuel fuel' i : ℕ), cands.length ≤ i + fuel → cands.length ≤ i + fuel' →
      pendF cands skip fuel i = pendF cands skip fuel' i := by
  intro fuel
  induction fuel with
  | zero =>
    intro fuel' i h h'
    rw [pendF_nil cands skip 0 i (by omega), pendF_nil cands skip fuel' i (by omega)]
  | succ n ih =>
    intro fuel' i h h'
    by_cases hi : i < cands.length
    · cases fuel' with
      | zero => omega
      | succ m =>
        simp only [pendF, if_pos hi]
        by_cases his : i ∈ skip
        · rw [if_pos his, if_pos his]
          exact ih m (i + 1) (by omega) (by omega)
        · rw [if_neg his, if_neg his, ih m (i + 1) (by omega) (by omega)]
    · rw [pendF_nil cands skip _ i (by omega), pendF_nil cands skip fuel' i (by omega)]

lemma pend_unfold (cands : List Person) (skip : Finset ℕ) (i : ℕ) (hi : i < cands.length) :
    pendF cands skip cands.length i =
      if i ∈ skip then pendF cands skip cands.length (i + 1)
      else cands.getD i dfltPerson :: pendF cands skip cands.length (i + 1) := by
  rw [pendF_adequate cands skip cands.length (cands.length + 1) i (by omega) (by omega)]
  simp only [pendF, if_pos hi]

lemma pendF_filter (c : Person) (cands : List Person) (skip skip' : Finset ℕ) :
    ∀ (fuel i : ℕ),
      (∀ k, i ≤ k → k < cands.length →
        (k ∈ skip' ↔ k ∈ skip ∨ mergeCondB c (cands.getD k dfltPerson) = true)) →
      pendF cands skip' fuel i =
        (pendF cands skip fuel i).filter (fun d => ! mergeCondB c d) := by
  intro fuel
  induction fuel with
  | zero => intro i _; rfl
  | succ n ih =>
    intro i hyp
    by_cases hi : i < cands.length
    · have hk := hyp i (le_refl i) hi
      simp only [pendF, if_pos hi]
      by_cases his : i ∈ skip
      · have his' : i ∈ skip' := hk.mpr (Or.inl his)
        rw [if_pos his, if_pos his']
        exact ih (i + 1) (fun k hk1 hk2 => hyp k (by omega) hk2)
      · by_cases hc : mergeCondB c (cands.getD i dfltPerson) = true
        · have his' : i ∈ skip' := hk.mpr (Or.inr hc)
          rw [if_pos his', if_neg his, List.filter_cons_of_neg ?_]
          · exact ih (i + 1) (fun k hk1 hk2 => hyp k (by omega) hk2)
          · show ¬((! mergeCondB c (cands.getD i dfltPerson)) = true)
            rw [hc]
            decide
        · have hcf : mergeCondB c (cands.getD i dfltPerson) = false := by
            revert hc
            cases mergeCondB c (cands.getD i dfltPerson) <;> simp
          have his' : i ∉ skip' := by
            intro hmem
            rcases hk.mp hmem with h' | h'
            · exact his h'
            · exact hc h'
          rw [if_neg his', if_neg his, List.filter_cons_of_pos ?_]
          · rw [ih (i + 1) (fun k hk1 hk2 => hyp k (by omega) hk2)]
          · show (! mergeCondB c (cands.getD i dfltPerson)) = true
            rw [hcf]
            rfl
    · simp only [pendF, if_neg hi, List.filter_nil]

lemma dedupSpecF_adequate :
    ∀ (fuel fuel' : ℕ) (l : List Person), l.length ≤ fuel → l.length ≤ fuel' →
      dedupSpecF fuel l = dedupSpecF fuel' l := by
  intro fuel
  induction fuel with
  | zero =>
    intro fuel' l h h'
    have : l = [] := List.length_eq_zero.mp (by omega)
    subst this
    cases fuel' <;> rfl
  | succ n ih =>
    intro fuel' l h h'
    match l with
    | [] => cases fuel' <;> rfl
    | c :: rest =>
      cases fuel' with
      | zero => simp at h'
      | succ m =>
        simp only [dedupSpecF]
        have hlen := List.length_filter_le (fun d => ! mergeCondB c d) rest
        rw [ih m _ (by simp at h; omega) (by simp at h'; omega)]

lemma dedupSpec_cons (c : Person) (rest : List Person) :
    dedupSpec (c :: rest) = c :: dedupSpec (rest.filter (fun d => ! mergeCondB c d)) := by
  unfold dedupSpec
  simp only [List.length_cons, dedupSpecF]
  have hlen := List.length_filter_le (fun d => ! mergeCondB c d) rest
  rw [dedupSpecF_adequate rest.length (rest.filter (fun d => ! mergeCondB c d)).length
    (rest.filter (fun d => ! mergeCondB c d)) (by omega) (le_refl _)]

lemma dedupSpecF_sublist : ∀ (fuel : ℕ) (l : List Person), (dedupSpecF fuel l).Sublist l := by
  intro fuel
  induction fuel with
  | zero => intro l; exact List.nil_sublist l
  | succ n ih =>
    intro l
    match l with
    | [] => exact List.Sublist.refl []
    | c :: rest =>
      simp only [dedupSpecF]
      exact List.Sublist.cons₂ c ((ih _).trans (List.filter_sublist rest))

lemma mergeLoopF_eq (cands : List Person) :
    ∀ (fuel i : ℕ) (skip : Finset ℕ), cands.length ≤ i + fuel →
      mergeLoopF cands fuel i skip = dedupSpec (pendF cands skip cands.length i) := by
  intro fuel
  induction fuel with
  | zero =>
    intro i skip hf
    rw [pendF_nil cands skip cands.length i (by omega)]
    rfl
  | succ n ih =>
    intro i skip hf
    by_cases hi : i < cands.length
    · rw [pend_unfold cands skip i hi]
      by_cases his : i ∈ skip
      · simp only [mergeLoopF, if_pos hi, if_pos his]
        exact ih (i + 1) skip (by omega)
      · simp only [mergeLoopF, if_pos hi, if_neg his]
        rw [dedupSpec_cons]
        have hskip' : ∀ k, i + 1 ≤ k → k < cands.length →
            (k ∈ innerSkipF (cands.getD i dfltPerson) cands cands.length (i + 1) skip ↔
              k ∈ skip ∨
                mergeCondB (cands.getD i dfltPerson) (cands.getD k dfltPerson) = true) := by
          intro k hk1 hk2
          rw [innerSkipF_mem (cands.getD i dfltPerson) cands cands.length (i + 1) skip k
            (by omega)]
          constructor
          · rintro (hs | ⟨_, _, h3⟩)
            · exact Or.inl hs
            · exact Or.inr h3
          · rintro (hs | h3)
            · exact Or.inl hs
            · exact Or.inr ⟨hk1, hk2, h3⟩
        rw [ih (i + 1) _ (by omega),
          pendF_filter (cands.getD i dfltPerson) cands skip _ cands.length (i + 1) hskip']
    · rw [pendF_nil cands skip cands.length i (by omega)]
      simp only [mergeLoopF, if_neg hi]
      rfl

lemma pendF_empty (cands : List Person) :
    ∀ (fuel i : ℕ), cands.length ≤ i + fuel → pendF cands ∅ fuel i = cands.drop i := by
  intro fuel
  induction fuel with
  | zero =>
    intro i hf
    rw [List.drop_eq_nil_of_le (by omega)]
    rfl
  | succ n ih =>
    intro i hf
    by_cases hi : i < cands.length
    · rw [List.drop_eq_getElem_cons hi]
      simp only [pendF, if_pos hi]
      rw [if_neg (Finset.not_mem_empty i), ih (i + 1) (by omega),
        List.getD_eq_getElem cands dfltPerson hi]
    · rw [List.drop_eq_nil_of_le (by omega)]
      simp only [pendF, if_neg hi]

lemma spatialDedup_eq_dedupSpec (cands : List Person) : spatialDedup cands = dedupSpec cands := by
  rw [spatialDedup, mergeLoopF_eq cands cands.length 0 ∅ (by omega),
    pendF_empty cands cands.length 0 (by omega), List.drop_zero]

lemma spatialDedup_sublist (cands : List Person) : (spatialDedup cands).Sublist cands := by
  rw [spatialDedup_eq_dedupSpec]
  exact dedupSpecF_sublist cands.length cands

/-- C1: the merge stage equals the claimed greedy rule: processing candidates
in original order, a later not-yet-skipped candidate is absorbed by an earlier
surviving candidate exactly when `(iou > 0.25 and dist3dSq < 0.35^2) or
pixel-center-distSq < 140^2` (the `mergeCondB` test of demo.py line 321); a
skipped candidate is never an anchor again, and the output is the survivors in
original relative order (a sublist of the input). -/
theorem c1_spatial_dedup_merge (cands : List Person) :
    spatialDedup cands = dedupSpec cands ∧ (spatialDedup cands).Sublist cands :=
  ⟨spatialDedup_eq_dedupSpec cands, spatialDedup_sublist cands⟩

/-! ### Person ID invariants (C8) -/

lemma assignFrom_map_pid (depthAt : ℤ → ℤ → ℚ) (depth_scale : ℚ)
    (deproj : ℤ × ℤ → ℚ → ℚ × ℚ × ℚ) (orig_w orig_h depth_h depth_w : ℤ) :
    ∀ (dets : List Det) (idc : ℕ),
      (assignFrom depthAt depth_scale deproj orig_w orig_h depth_h depth_w idc dets).map
          Person.pid = List.range' idc dets.length := by
  intro dets
  induction dets with
  | nil => intro idc; rfl
  | cons det rest ih =>
    intro idc
    simp only [assignFrom, List.map_cons, List.length_cons, List.range'_succ, ih (idc + 1)]
    rfl

/-- C8: within one frame, IDs are assigned sequentially starting at 1 to the
decoded detections before merging (`[1, ..., n]` in order), every ID is at
least 1, and the post-deduplication output carries IDs that are unique within
the frame. -/
theorem c8_person_ids (depthAt : ℤ → ℤ → ℚ) (depth_scale : ℚ)
    (deproj : ℤ × ℤ → ℚ → ℚ × ℚ × ℚ) (orig_w orig_h depth_h depth_w : ℤ)
    (dets : List Det) :
    (assignPersons depthAt depth_scale deproj orig_w orig_h depth_h depth_w dets).map
        Person.pid = List.range' 1 dets.length ∧
      (∀ p ∈ assignPersons depthAt depth_scale deproj orig_w orig_h depth_h depth_w dets,
        1 ≤ p.pid) ∧
      ((spatialDedup
          (assignPersons depthAt depth_scale deproj orig_w orig_h depth_h depth_w dets)).map
        Person.pid).Nodup := by
  have hmap : (assignPersons depthAt depth_scale deproj orig_w orig_h depth_h depth_w dets).map
      Person.pid = List.range' 1 dets.length :=
    assignFrom_map_pid depthAt depth_scale deproj orig_w orig_h depth_h depth_w dets 1
  refine ⟨hmap, ?_, ?_⟩
  · intro p hp
    have : p.pid ∈ List.range' 1 dets.length := by
      rw [← hmap]
      exact List.mem_map_of_mem Person.pid hp
    rcases List.mem_range'.mp this with ⟨i, _, hi⟩
    omega
  · have hsub : ((spatialDedup
        (assignPersons depthAt depth_scale deproj orig_w orig_h depth_h depth_w dets)).map
          Person.pid).Sublist
        ((assignPersons depthAt depth_scale deproj orig_w orig_h depth_h depth_w dets).map
          Person.pid) :=
      List.Sublist.map Person.pid (spatialDedup_sublist _)
    rw [hmap] at hsub
    exact hsub.nodup (List.nodup_range' 1 dets.length)

/-! ### Suppressor: sorted greedy loop equals pick-the-max greedy (C2) -/

lemma find_agree {α : Type} (p q : α → Bool) :
    ∀ l : List α, (∀ x ∈ l, p x = q x) → l.find? p = l.find? q := by
  intro l
  induction l with
  | nil => intro _; rfl
  | cons a l ih =>
    intro h
    have ha := h a (List.mem_cons_self a l)
    by_cases hpa : p a = true
    · rw [List.find?_cons_of_pos l hpa, List.find?_cons_of_pos l (ha ▸ hpa)]
    · rw [List.find?_cons_of_neg l hpa, List.find?_cons_of_neg l (fun hq => hpa (ha ▸ hq)),
        ih (fun x hx => h x (List.mem_cons_of_mem a hx))]

lemma firstMax_correct {l : List Det} {b : Det} (h : firstMax l = some b) :
    b ∈ l ∧ ∀ d ∈ l, d.score ≤ b.score := by
  refine ⟨List.mem_of_find?_eq_some h, ?_⟩
  have hall := List.find?_some h
  intro d hd
  have := List.all_eq_true.mp hall d hd
  exact of_decide_eq_true this

lemma orderedInsert_of_forall (a : Det) (m : List Det) (h : ∀ z ∈ m, scoreGe a z) :
    List.orderedInsert scoreGe a m = a :: m := by
  cases m with
  | nil => rfl
  | cons y ys =>
    simp only [List.orderedInsert]
    rw [if_pos (h y (List.mem_cons_self y ys))]

lemma orderedInsert_filter (p : Det → Bool) (a : Det) :
    ∀ m : List Det, List.Sorted scoreGe m →
      (List.orderedInsert scoreGe a m).filter p =
        if p a then List.orderedInsert scoreGe a (m.filter p) else m.filter p := by
  intro m
  induction m with
  | nil =>
    intro _
    by_cases hp : p a = true
    · simp [List.orderedInsert, List.filter, hp]
    · simp [List.orderedInsert, List.filter, hp]
  | cons y ys ih =>
    intro hs
    obtain ⟨hy, hs'⟩ := List.sorted_cons.mp hs
    by_cases hr : scoreGe a y
    · simp only [List.orderedInsert, if_pos hr]
      by_cases hp : p a = true
      · rw [if_pos hp, List.filter_cons_of_pos hp]
        by_cases hpy : p y = true
        · rw [List.filter_cons_of_pos hpy]
          simp only [List.orderedInsert]
          rw [if_pos hr]
        · rw [List.filter_cons_of_neg hpy,
            orderedInsert_of_forall a (ys.filter p)
              (fun z hz => le_trans (hy z (List.mem_of_mem_filter hz)) hr)]
      · rw [if_neg hp, List.filter_cons_of_neg hp]
    · simp only [List.orderedInsert, if_neg hr]
      by_cases hpy : p y = true
      · rw [List.filter_cons_of_pos hpy, ih hs', List.filter_cons_of_pos hpy]
        by_cases hp : p a = true
        · rw [if_pos hp, if_pos hp]
          simp only [List.orderedInsert]
          rw [if_neg hr]
        · rw [if_neg hp, if_neg hp]
      · rw [List.filter_cons_of_neg hpy, ih hs', List.filter_cons_of_neg hpy]

lemma sortDesc_filter (p : Det → Bool) :
    ∀ l : List Det, sortDesc (l.filter p) = (sortDesc l).filter p := by
  intro l
  unfold sortDesc
  induction l with
  | nil => rfl
  | cons a l ih =>
    by_cases hp : p a = true
    · rw [List.filter_cons_of_pos hp]
      simp only [List.insertionSort]
      rw [ih, orderedInsert_filter p a (List.insertionSort scoreGe l)
        (List.sorted_insertionSort scoreGe l), if_pos hp]
    · rw [List.filter_cons_of_neg hp]
      simp only [List.insertionSort]
      rw [ih, orderedInsert_filter p a (List.insertionSort scoreGe l)
        (List.sorted_insertionSort scoreGe l), if_neg hp]

lemma sortDesc_decomp : ∀ l : List Det, l ≠ [] →
    ∃ b, firstMax l = some b ∧ sortDesc l = b :: sortDesc (l.erase b) := by
  intro l
  induction l with
  | nil => intro h; exact absurd rfl h
  | cons a l' ih =>
    intro _
    cases l' with
    | nil =>
      refine ⟨a, ?_, ?_⟩
      · simp only [firstMax]
        apply List.find?_cons_of_pos
        simp
      · rw [List.erase_cons_head]
        rfl
    | cons x xs =>
      obtain ⟨b', hfm', hsort'⟩ := ih (by simp)
      have hmem' : b' ∈ x :: xs := (firstMax_correct hfm').1
      have hmax' : ∀ d ∈ x :: xs, d.score ≤ b'.score := (firstMax_correct hfm').2
      by_cases hr : scoreGe a b'
      · refine ⟨a, ?_, ?_⟩
        · simp only [firstMax]
          apply List.find?_cons_of_pos
          rw [List.all_eq_true]
          intro d hd
          rcases List.mem_cons.mp hd with rfl | hd'
          · exact decide_eq_true (le_refl d.score)
          · exact decide_eq_true (le_trans (hmax' d hd') hr)
        · rw [List.erase_cons_head]
          show List.orderedInsert scoreGe a (sortDesc (x :: xs)) = a :: sortDesc (x :: xs)
          rw [hsort']
          simp only [List.orderedInsert]
          rw [if_pos hr, ← hsort']
      · have hlt : a.score < b'.score := not_le.mp hr
        have hne : a ≠ b' := by
          intro he
          rw [he] at hlt
          exact lt_irrefl _ hlt
        refine ⟨b', ?_, ?_⟩
        · simp only [firstMax]
          rw [List.find?_cons_of_neg]
          · rw [find_agree _ (fun bb => (x :: xs).all (fun d => decide (d.score ≤ bb.score)))
              (x :: xs) ?_]
            · exact hfm'
            · intro z hz
              show ((a :: x :: xs).all fun d => decide (d.score ≤ z.score)) =
                ((x :: xs).all fun d => decide (d.score ≤ z.score))
              rw [List.all_cons]
              by_cases hallp : ∀ d ∈ x :: xs, d.score ≤ z.score
              · have hall : ((x :: xs).all (fun d => decide (d.score ≤ z.score))) = true :=
                  List.all_eq_true.mpr (fun d hd => decide_eq_true (hallp d hd))
                rw [hall, Bool.and_true]
                exact decide_eq_true (le_trans (le_of_lt hlt) (hallp b' hmem'))
              · have hall : ((x :: xs).all (fun d => decide (d.score ≤ z.score))) = false :=
                  Bool.eq_false_iff.mpr (fun hc =>
                    hallp (fun d hd => of_decide_eq_true (List.all_eq_true.mp hc d hd)))
                rw [hall, Bool.and_false]
          · intro habs
            have := List.all_eq_true.mp habs b' (List.mem_cons_of_mem a hmem')
            exact absurd (of_decide_eq_true this) (not_le.mpr hlt)
        · rw [List.erase_cons_tail (by simp [hne])]
          show List.orderedInsert scoreGe a (sortDesc (x :: xs)) =
            b' :: sortDesc (a :: (x :: xs).erase b')
          rw [hsort']
          simp only [List.orderedInsert]
          rw [if_neg hr]
          rfl

lemma nmsLoopF_sort_eq_spec (t : ℚ) :
    ∀ (fuel : ℕ) (l : List Det), l.length ≤ fuel →
      nmsLoopF fuel (sortDesc l) t = nmsSpecAuxF (fun b d => nmsKeepB b d t) fuel l := by
  intro fuel
  induction fuel with
  | zero =>
    intro l hl
    rfl
  | succ n ih =>
    intro l hl
    match hcase : l with
    | [] => rfl
    | a :: l' =>
      obtain ⟨b, hfm, hdecomp⟩ := sortDesc_decomp (a :: l') (by simp)
      have hbmem : b ∈ a :: l' := (firstMax_correct hfm).1
      have herase : ((a :: l').erase b).length = l'.length :=
        (List.length_erase_of_mem hbmem).trans (by simp)
      rw [hdecomp]
      show b :: nmsLoopF n (((sortDesc ((a :: l').erase b)).filter
        (fun d => nmsKeepB b d t))) t = nmsSpecAuxF (fun b d => nmsKeepB b d t) (n + 1) (a :: l')
      rw [← sortDesc_filter (fun d => nmsKeepB b d t) ((a :: l').erase b),
        ih (((a :: l').erase b).filter (fun d => nmsKeepB b d t))
          (le_trans (List.length_filter_le _ _) (by rw [herase]; simpa using hl))]
      simp only [nmsSpecAuxF, hfm]

/-- C2 counterexample: with two boxes whose IoU equals the threshold exactly
(`t = 1000000/3000001`, the code's IoU of the two boxes below), the code's NMS
removes the lower-scored box (it removes at `iou >= t`), while the suppressor
described by the claim (removal only at `iou > t`, equality kept) keeps it, so
the claim's description of the code is false at this input. -/
theorem c2_cex_nms_ne_strict :
    nms [⟨0, 0, 2, 1, 9/10⟩, ⟨1, 0, 3, 1, 8/10⟩] (1000000/3000001) ≠
      nmsSpecStrict [⟨0, 0, 2, 1, 9/10⟩, ⟨1, 0, 3, 1, 8/10⟩] (1000000/3000001) := by
  have h1 : nms [⟨0, 0, 2, 1, 9/10⟩, ⟨1, 0, 3, 1, 8/10⟩] (1000000/3000001) =
      [⟨0, 0, 2, 1, 9/10⟩] := by
    norm_num [nms, sortDesc, List.insertionSort, List.orderedInsert, scoreGe,
      nmsLoopF, nmsKeepB, compute_iou, Det.toBox]
  have h2 : nmsSpecStrict [⟨0, 0, 2, 1, 9/10⟩, ⟨1, 0, 3, 1, 8/10⟩] (1000000/3000001) =
      [⟨0, 0, 2, 1, 9/10⟩, ⟨1, 0, 3, 1, 8/10⟩] := by
    norm_num [nmsSpecStrict, nmsSpecAuxF, firstMax, List.find?, List.all,
      compute_iou, Det.toBox, List.erase, List.filter]
  rw [h1, h2]
  intro h
  exact absurd (congrArg List.length h) (by simp)

/-- C2 (amended): the code's NMS equals greedy suppression where each round
selects the highest-remaining-score box (first-seen tie-break) and removes
every remaining box whose IoU with it is greater than **or equal to** the
threshold (a box whose IoU equals the threshold exactly is removed, not kept);
output in selection order, highest score first. -/
theorem c2_nms_eq_greedy_ge (dets : List Det) (t : ℚ) : nms dets t = nmsSpecGe dets t := by
  unfold nms nmsSpecGe
  by_cases hnil : dets.length = 0
  · rw [if_pos hnil]
    have : dets = [] := List.length_eq_zero.mp hnil
    subst this
    rfl
  · rw [if_neg hnil]
    exact nmsLoopF_sort_eq_spec t dets.length dets (le_refl _)
